import Mathlib

/-!
Verification of the cargo-task core: the AtAt directive scanner, the task
metadata model, the dependency resolver, the environment bridge and the
execution engine.  The crate root (`src/lib.rs`) only declares the modules
`at_at`, `task`, `env_loader` and `exec` and documents their behaviour; the
module bodies are not part of the sources in view, so those components are
modelled from the specification text and the crate-level documentation.
-/

namespace CargoTask

/-- Modelled from the spec: a three-component semantic version
(major, minor, patch); the version parsing/comparison code lives in the
missing `task.rs`/`exec.rs` modules. -/
structure SemVer where
  major : Nat
  minor : Nat
  patch : Nat
deriving DecidableEq

/-- Modelled from the spec: standard three-component semantic ordering,
major first, then minor, then patch. -/
def semverLt (a b : SemVer) : Bool :=
  Nat.blt a.major b.major ||
    (a.major == b.major &&
      (Nat.blt a.minor b.minor ||
        (a.minor == b.minor && Nat.blt a.patch b.patch)))

/-- Modelled from the spec: the metadata of one discovered task, populated
from the AtAt directives of its crate-root source file (the `task.rs` module
is missing from the sources in view). -/
structure TaskMetadata where
  name : String
  is_default : Bool
  is_bootstrap : Bool
  cargo_deps : List String
  task_deps : List String
  min_version : Option SemVer
deriving DecidableEq

/-- Modelled from the spec: the registry is a name-keyed collection of task
metadata; we keep it as a list in directory discovery order, with name lookup
returning the first entry carrying the name. -/
def findTask (reg : List TaskMetadata) (name : String) : Option TaskMetadata :=
  reg.find? (fun t => t.name == name)

/-- Modelled from the spec: the resolver error taxonomy, `UnknownTask` for a
name absent from the registry and `CyclicDependency` carrying the names of
the tasks participating in the cycle. -/
inductive ResolveError where
  | UnknownTask : String → ResolveError
  | CyclicDependency : List String → ResolveError
deriving DecidableEq

/-- Modelled from the spec: depth-first traversal bookkeeping, with
`visiting` the chain of tasks currently open (cycle marks) and `visited`
the tasks whose dependency closure is complete. -/
structure DfsState where
  visiting : List String
  visited : List String
deriving DecidableEq

/-- Modelled from the spec: depth-first computation of the transitive closure
of `task_deps` reachable from a list of names, marking nodes
visiting/visited; a node reached while still visiting signals a cycle, a name
absent from the registry is `UnknownTask`, and bootstrap tasks are excluded
from the closure entirely (marked visited without following them).  The
`fuel` argument only bounds the recursion; `resolve` supplies enough of it
for every terminating run. -/
def closureRun (reg : List TaskMetadata) :
    Nat → List String → DfsState → Except ResolveError DfsState
  | 0, [], st => .ok st
  | 0, _ :: _, st => .error (.CyclicDependency st.visiting)
  | _ + 1, [], st => .ok st
  | fuel + 1, name :: rest, st =>
    if name ∈ st.visited then
      closureRun reg fuel rest st
    else if name ∈ st.visiting then
      .error (.CyclicDependency st.visiting)
    else
      match findTask reg name with
      | none => .error (.UnknownTask name)
      | some t =>
        if t.is_bootstrap then
          closureRun reg fuel rest ⟨st.visiting, name :: st.visited⟩
        else
          match closureRun reg fuel t.task_deps ⟨name :: st.visiting, st.visited⟩ with
          | .error e => .error e
          | .ok st2 => closureRun reg fuel rest ⟨st.visiting, name :: st2.visited⟩

/-- Modelled from the spec: emission of the topological order.  The registry
is walked in discovery order restricted to the computed closure `clo`; each
task is emitted only after all of its `task_deps` have been emitted, so ties
among unconstrained tasks are broken by registry discovery order, never by
name sort.  Bootstrap tasks and names outside the closure are skipped. -/
def emitRun (reg : List TaskMetadata) (clo : List String) :
    Nat → List String → List String → Except ResolveError (List String)
  | 0, [], out => .ok out
  | 0, _ :: _, _ => .error (.CyclicDependency [])
  | _ + 1, [], out => .ok out
  | fuel + 1, name :: rest, out =>
    if name ∈ out then
      emitRun reg clo fuel rest out
    else if name ∈ clo then
      match findTask reg name with
      | none => emitRun reg clo fuel rest out
      | some t =>
        if t.is_bootstrap then
          emitRun reg clo fuel rest out
        else
          match emitRun reg clo fuel t.task_deps out with
          | .error e => .error e
          | .ok out2 =>
            if name ∈ out2 then
              emitRun reg clo fuel rest out2
            else
              emitRun reg clo fuel rest (out2 ++ [name])
    else
      emitRun reg clo fuel rest out

/-- Modelled from the spec: the names of all tasks with `is_default = true`,
in registry discovery order. -/
def defaultNames (reg : List TaskMetadata) : List String :=
  (reg.filter (fun t => t.is_default)).map (fun t => t.name)

/-- Modelled from the spec: if `requested_names` is empty, substitute the set
of all tasks with `is_default = true`. -/
def requestedOrDefault (reg : List TaskMetadata) (requested : List String) : List String :=
  if requested.isEmpty then defaultNames reg else requested

/-- Fuel bound for the resolver: generously larger than the total number of
dependency edges plus tasks plus requested names, so the depth-first runs
below never exhaust it on inputs they terminate on. -/
def resolveFuel (reg : List TaskMetadata) (req : List String) : Nat :=
  req.length + reg.foldl (fun a t => a + t.task_deps.length + 1) 0 + reg.length + 1

/-- Modelled from the spec: `resolve(registry, requested_names)` computes the
transitive closure of `task_deps` reachable from the requested set (or the
default set), failing with `UnknownTask` or `CyclicDependency`, and then
emits a topological order with ties broken by registry discovery order. -/
def resolve (reg : List TaskMetadata) (requested : List String) :
    Except ResolveError (List String) :=
  match closureRun reg (resolveFuel reg (requestedOrDefault reg requested))
      (requestedOrDefault reg requested) ⟨[], []⟩ with
  | .error e => .error e
  | .ok st =>
    emitRun reg st.visited (resolveFuel reg (requestedOrDefault reg requested))
      (reg.map (fun t => t.name)) []

/-- Modelled from the spec: the names of all tasks with `is_bootstrap = true`,
in registry discovery order; these are always executed, in every invocation,
before any requested task. -/
def bootstrapNames (reg : List TaskMetadata) : List String :=
  (reg.filter (fun t => t.is_bootstrap)).map (fun t => t.name)

/-- Modelled from the spec: the overall run of one invocation, bootstrap
phase first (from the initially scanned registry `reg`), then the main phase
resolved against the reloaded registry `reg2` and the original requested
names. -/
def invocationPlan (reg reg2 : List TaskMetadata) (requested : List String) :
    Except ResolveError (List String) :=
  match resolve reg2 requested with
  | .error e => .error e
  | .ok main => .ok (bootstrapNames reg ++ main)

/-- Modelled from the spec: execution-engine error taxonomy. -/
inductive ExecError where
  | ResolveFailed : ResolveError → ExecError
  | VersionTooLow : String → ExecError
  | TaskFailed : String → Nat → ExecError
deriving DecidableEq

/-- Modelled from the spec: a task passes the version gate when it declares
no `min_version`, or when the running tool's version is not below the
declared minimum under three-component semantic ordering. -/
def versionOk (tool : SemVer) (t : TaskMetadata) : Bool :=
  match t.min_version with
  | none => true
  | some v => !(semverLt tool v)

/-- Modelled from the spec: sequential execution of the planned task names;
the accumulated first component is the trace of spawned external processes,
and a non-zero exit status aborts the invocation with `TaskFailed`. -/
def runTasks (exit : String → Nat) :
    List String → List String → List String × Except ExecError Unit
  | [], trace => (trace, .ok ())
  | n :: rest, trace =>
    if exit n = 0 then
      runTasks exit rest (trace ++ [n])
    else
      (trace ++ [n], .error (.TaskFailed n (exit n)))

/-- Modelled from the spec: one invocation of the execution engine — resolve
the plan (bootstrap set first, then main set), run the version gate over
every task about to run before executing anything, then execute the plan
sequentially.  The first component of the result is the trace of spawned
external processes. -/
def runInvocation (tool : SemVer) (reg : List TaskMetadata)
    (requested : List String) (exit : String → Nat) :
    List String × Except ExecError Unit :=
  match invocationPlan reg reg requested with
  | .error e => ([], .error (.ResolveFailed e))
  | .ok plan =>
    match (plan.filterMap (findTask reg)).find? (fun t => !(versionOk tool t)) with
    | some t => ([], .error (.VersionTooLow t.name))
    | none => runTasks exit plan []

/-- Modelled from the spec: the observable behaviour of one task run — the
key/value pairs it exports through the Environment Bridge (`CTEnv::set_env`)
and the ordinary process-local environment mutations it performs
(`std::env::set_var`), which die with the task's own process. -/
structure TaskRun where
  exports : List (String × String)
  localMut : List (String × String)
deriving DecidableEq

/-- Modelled from the spec: the Environment Bridge state accumulated after a
list of task runs — every task's exports are stored to the bridge when it
completes, earlier tasks first (later writes shadow earlier ones on
lookup). -/
def bridgeAfter : List TaskRun → List (String × String)
  | [] => []
  | t :: rest => t.exports ++ bridgeAfter rest

/-- Modelled from the spec: the execution environment seen by the task at
position `j` of an invocation — the base process environment merged with the
bridge state written by the tasks at positions before `j` of the same
invocation.  The bridge is created fresh per invocation, so nothing from any
other invocation enters. -/
def envSeenBy (base : List (String × String)) (tasks : List TaskRun) (j : Nat) :
    List (String × String) :=
  base ++ bridgeAfter (tasks.take j)

/-- Modelled from the spec: environment lookup, later writes shadowing
earlier ones. -/
def envLookup (k : String) (env : List (String × String)) : Option String :=
  match env.reverse.find? (fun p => p.1 == k) with
  | none => none
  | some p => some p.2

/-- Index of the first occurrence of a name in an emitted order. -/
def idxOf : List String → String → Nat
  | [], _ => 0
  | a :: l, x => if a = x then 0 else idxOf l x + 1

/-- Modelled from the spec: one dependency edge of the main-phase closure:
`a` is a non-bootstrap registry task and `b` one of its `task_deps`, itself a
non-bootstrap registry task (bootstrap tasks are excluded from the closure
entirely). -/
def depStep (reg : List TaskMetadata) (a b : String) : Prop :=
  ∃ t u, findTask reg a = some t ∧ t.is_bootstrap = false ∧ b ∈ t.task_deps ∧
    findTask reg b = some u ∧ u.is_bootstrap = false

/-- A set of names closed under following the `task_deps` of its non-bootstrap
registry members. -/
def ClosedV (reg : List TaskMetadata) (V : List String) : Prop :=
  ∀ v ∈ V, ∀ t, findTask reg v = some t → t.is_bootstrap = false →
    ∀ d ∈ t.task_deps, d ∈ V

/-- The emitted order respects dependencies: every member's closure
dependencies are present and appear strictly earlier. -/
def TopoInv (reg : List TaskMetadata) (out : List String) : Prop :=
  ∀ a ∈ out, ∀ b, depStep reg a b → b ∈ out ∧ idxOf out b < idxOf out a

/-! ### AtAt directive scanner -/

/-- Modelled from the spec: the characters insignificant at the two outer
edges of a directive key or value. -/
def isWsChar (c : Char) : Bool :=
  c == ' ' || c == '\t' || c == '\r' || c == '\n'

/-- Modelled from the spec: trim whitespace at the two outer edges only. -/
def trimChars (cs : List Char) : List Char :=
  ((cs.dropWhile isWsChar).reverse.dropWhile isWsChar).reverse

/-- Modelled from the spec: the only parse failure of the AtAt scanner — an
opening `@key@` whose value reaches end of input without a literal `@@`
terminator. -/
inductive AtAtError where
  | MalformedDirective : List Char → AtAtError
deriving DecidableEq

/-- Modelled from the spec: scan the key of a directive line — the characters
after the leading `@` up to the closing `@` on the same line; a newline
before the closing `@` means the line opens no directive. -/
def scanKey : List Char → Option (List Char × List Char)
  | [] => none
  | c :: rest =>
    if c == '@' then some ([], rest)
    else if c == '\n' then none
    else
      match scanKey rest with
      | none => none
      | some (k, r) => some (c :: k, r)

/-- Modelled from the spec: forward scan for the literal two-character
terminator `@@`; returns the value content before it and the input after it.
Everything before the terminator, newlines included, is value content. -/
def findTerm : List Char → Option (List Char × List Char)
  | [] => none
  | [_] => none
  | c :: d :: rest =>
    if c == '@' && d == '@' then some ([], rest)
    else
      match findTerm (d :: rest) with
      | none => none
      | some (v, r) => some (c :: v, r)

/-- Whether the text contains the literal two-character terminator `@@`. -/
def hasAtAt : List Char → Bool
  | [] => false
  | [_] => false
  | c :: d :: rest => (c == '@' && d == '@') || hasAtAt (d :: rest)

/-- Drop the rest of the current line, through its terminating newline. -/
def dropLine : List Char → List Char
  | [] => []
  | c :: rest => if c == '\n' then rest else dropLine rest

/-- Modelled from the spec: the single forward scan of the AtAt grammar.  At
each line start, a leading `@` with a key closed by a second `@` on the same
line opens a directive whose value runs to the literal `@@`; any other line
is skipped.  `fuel` only bounds the recursion and `atAtParse` supplies
enough of it for every input. -/
def atAtGo : Nat → List Char → Except AtAtError (List (List Char × List Char))
  | 0, _ => .ok []
  | _ + 1, [] => .ok []
  | fuel + 1, c :: rest =>
    if c == '@' then
      match scanKey rest with
      | none => atAtGo fuel (dropLine rest)
      | some (key, afterKey) =>
        match findTerm afterKey with
        | none => .error (.MalformedDirective (trimChars key))
        | some (v, afterVal) =>
          match atAtGo fuel (dropLine afterVal) with
          | .error e => .error e
          | .ok ds => .ok ((trimChars key, trimChars v) :: ds)
    else
      atAtGo fuel (dropLine (c :: rest))

/-- Modelled from the spec: parse a whole source text into its directives, or
fail with `MalformedDirective`. -/
def atAtParse (input : List Char) : Except AtAtError (List (List Char × List Char)) :=
  atAtGo (input.length + 1) input

/-- Characters legal inside a directive key for the purposes of the theorems
below: anything but the delimiter `@` and a newline. -/
def validKeyChars (k : List Char) : Bool :=
  k.all (fun c => !(c == '@') && !(c == '\n'))

/-- Serialization of one directive in the AtAt protocol `@key@ value @@`. -/
def serializeDirective (k v : List Char) : List Char :=
  '@' :: (k ++ '@' :: (v ++ ['@', '@']))

/-! ### Constants from `src/lib.rs` and the single-file task naming -/

/-- The .cargo-task directory name (`src/lib.rs`, line 198). -/
def CARGO_TASK_DIR : String := ".cargo-task"

/-- Modelled from the spec: the fixed filename suffix identifying a
single-file task unit (`my-task.ct.rs` defines task `my-task`); the scan code
lives in the missing `task.rs` module. -/
def ctScriptSuffix : List Char := ".ct.rs".toList

/-- Modelled from the spec: the task name of a single-file unit is its file
name with the fixed `.ct.rs` suffix stripped; files without the suffix are
not single-file task units. -/
def ctTaskName (file : List Char) : Option (List Char) :=
  if ctScriptSuffix.length ≤ file.length ∧
      file.drop (file.length - ctScriptSuffix.length) = ctScriptSuffix then
    some (file.take (file.length - ctScriptSuffix.length))
  else
    none

/-! ### Concrete fixtures -/

/-- Task `A` depending on `B` (cycle pair). -/
def taskCycA : TaskMetadata :=
  { name := "A", is_default := false, is_bootstrap := false,
    cargo_deps := [], task_deps := ["B"], min_version := none }

/-- Task `B` depending on `A` (cycle pair). -/
def taskCycB : TaskMetadata :=
  { name := "B", is_default := false, is_bootstrap := false,
    cargo_deps := [], task_deps := ["A"], min_version := none }

/-- Registry with the two-task cycle `A -> B -> A`. -/
def regCyc : List TaskMetadata := [taskCycA, taskCycB]

/-- Task `A` depending on `B` (chain). -/
def taskChainA : TaskMetadata :=
  { name := "A", is_default := false, is_bootstrap := false,
    cargo_deps := [], task_deps := ["B"], min_version := none }

/-- Task `B` depending on `C` (chain). -/
def taskChainB : TaskMetadata :=
  { name := "B", is_default := false, is_bootstrap := false,
    cargo_deps := [], task_deps := ["C"], min_version := none }

/-- Task `C` with no dependencies (chain). -/
def taskChainC : TaskMetadata :=
  { name := "C", is_default := false, is_bootstrap := false,
    cargo_deps := [], task_deps := [], min_version := none }

/-- Registry with the chain `A -> B -> C`. -/
def regChain : List TaskMetadata := [taskChainA, taskChainB, taskChainC]

/-- Independent task discovered first, late in name order. -/
def taskTieZ : TaskMetadata :=
  { name := "Z", is_default := false, is_bootstrap := false,
    cargo_deps := [], task_deps := [], min_version := none }

/-- Independent task discovered second, early in name order. -/
def taskTieA : TaskMetadata :=
  { name := "A", is_default := false, is_bootstrap := false,
    cargo_deps := [], task_deps := [], min_version := none }

/-- Registry whose discovery order `Z, A` disagrees with name order. -/
def regTie : List TaskMetadata := [taskTieZ, taskTieA]

/-- Bootstrap task also used as a dependency. -/
def taskBootB : TaskMetadata :=
  { name := "B", is_default := false, is_bootstrap := true,
    cargo_deps := [], task_deps := [], min_version := none }

/-- Requested task depending on the bootstrap task. -/
def taskBootA : TaskMetadata :=
  { name := "A", is_default := false, is_bootstrap := false,
    cargo_deps := [], task_deps := ["B"], min_version := none }

/-- Registry with a bootstrap task that is also a transitive dependency. -/
def regBoot : List TaskMetadata := [taskBootB, taskBootA]

/-- The single default task. -/
def taskDef : TaskMetadata :=
  { name := "D", is_default := true, is_bootstrap := false,
    cargo_deps := [], task_deps := [], min_version := none }

/-- Registry with exactly one task marked `is_default = true`. -/
def regDef : List TaskMetadata := [taskDef]

/-- Task demanding a tool version far in the future. -/
def taskVer : TaskMetadata :=
  { name := "A", is_default := false, is_bootstrap := false,
    cargo_deps := [], task_deps := [], min_version := some ⟨9, 9, 9⟩ }

/-- Registry for the version-gate scenario. -/
def regVer : List TaskMetadata := [taskVer]

/-- A bootstrap-like task run exporting one key through the bridge and
mutating its own process environment. -/
def runExport : TaskRun :=
  { exports := [("MY_VARIABLE", "MY_VALUE")], localMut := [("LOCAL", "x")] }

/-- A later task run exporting nothing. -/
def runQuiet : TaskRun :=
  { exports := [], localMut := [] }

/-- A two-task invocation for the bridge scenario. -/
def invTasks : List TaskRun := [runExport, runQuiet]

/-! ### Scanner lemmas -/

theorem scanKey_append (cs : List Char) :
    ∀ k, validKeyChars k = true → scanKey (k ++ '@' :: cs) = some (k, cs) := by
  intro k
  induction k with
  | nil => intro _; simp [scanKey]
  | cons c k ih =>
    intro hk
    simp only [validKeyChars, List.all_cons, Bool.and_eq_true, Bool.not_eq_true',
      beq_eq_false_iff_ne] at hk
    obtain ⟨⟨h1, h2⟩, hrest⟩ := hk
    have ih' := ih (by simpa [validKeyChars] using hrest)
    simp [scanKey, beq_eq_false_iff_ne.mpr h1, beq_eq_false_iff_ne.mpr h2, ih']

theorem findTerm_none : ∀ cs, hasAtAt cs = false → findTerm cs = none := by
  intro cs
  induction cs with
  | nil => intro _; rfl
  | cons c rest ih =>
    intro h
    cases rest with
    | nil => rfl
    | cons d rest2 =>
      simp only [hasAtAt, Bool.or_eq_false_iff] at h
      simp [findTerm, h.1, ih h.2]

theorem findTerm_append (rest : List Char) :
    ∀ cs, hasAtAt cs = false → cs.getLast? ≠ some '@' →
      findTerm (cs ++ '@' :: '@' :: rest) = some (cs, rest) := by
  intro cs
  induction cs with
  | nil => intro _ _; simp [findTerm]
  | cons c cs ih =>
    intro h hl
    cases cs with
    | nil =>
      simp only [List.getLast?_singleton, ne_eq, Option.some.injEq] at hl
      simp [findTerm, beq_eq_false_iff_ne.mpr hl]
    | cons d cs2 =>
      simp only [hasAtAt, Bool.or_eq_false_iff] at h
      have hl' : (d :: cs2).getLast? ≠ some '@' := by
        simpa [List.getLast?_cons_cons] using hl
      have ih' := ih h.2 hl'
      simp only [List.cons_append] at ih' ⊢
      simp [findTerm, h.1, ih']

theorem dropLine_append (r : List Char) :
    ∀ l, '\n' ∉ l → dropLine (l ++ '\n' :: r) = r := by
  intro l
  induction l with
  | nil => intro _; simp [dropLine]
  | cons c l ih =>
    intro h
    simp only [List.mem_cons, not_or] at h
    simp [dropLine, beq_eq_false_iff_ne.mpr (Ne.symm h.1), ih h.2]

theorem dropLine_length : ∀ l : List Char, (dropLine l).length ≤ l.length := by
  intro l
  induction l with
  | nil => simp [dropLine]
  | cons c l ih =>
    by_cases h : c = '\n'
    · simp [dropLine, h]
    · simp only [dropLine, beq_eq_false_iff_ne.mpr h, if_false, Bool.false_eq_true]
      exact Nat.le_succ_of_le ih

theorem scanKey_length : ∀ l k r, scanKey l = some (k, r) → r.length < l.length := by
  intro l
  induction l with
  | nil => intro k r h; simp [scanKey] at h
  | cons c l ih =>
    intro k r h
    by_cases h1 : c = '@'
    · simp only [scanKey, h1, beq_self_eq_true, if_true, Option.some.injEq,
        Prod.mk.injEq] at h
      obtain ⟨_, hr⟩ := h
      subst hr
      simp
    · by_cases h2 : c = '\n'
      · simp [scanKey, beq_eq_false_iff_ne.mpr h1, h2] at h
      · simp only [scanKey, beq_eq_false_iff_ne.mpr h1, beq_eq_false_iff_ne.mpr h2,
          if_false, Bool.false_eq_true] at h
        cases hs : scanKey l with
        | none => rw [hs] at h; simp at h
        | some p =>
          rw [hs] at h
          obtain ⟨k2, r2⟩ := p
          simp only [Option.some.injEq, Prod.mk.injEq] at h
          have hlt := ih k2 r2 hs
          obtain ⟨hk, hr⟩ := h
          subst hr
          simp only [List.length_cons]
          omega

theorem findTerm_length : ∀ l v r, findTerm l = some (v, r) → r.length < l.length := by
  intro l
  induction l with
  | nil => intro v r h; simp [findTerm] at h
  | cons c l ih =>
    intro v r h
    cases l with
    | nil => simp [findTerm] at h
    | cons d l2 =>
      by_cases hc : c = '@' ∧ d = '@'
      · simp only [findTerm, hc.1, hc.2, beq_self_eq_true, Bool.and_self, if_true,
          Option.some.injEq, Prod.mk.injEq] at h
        obtain ⟨_, hr⟩ := h
        subst hr
        simp only [List.length_cons]
        omega
      · have hcond : (c == '@' && d == '@') = false := by
          rcases Decidable.not_and_iff_or_not.mp hc with h1 | h1 <;>
            simp [beq_eq_false_iff_ne.mpr h1]
        simp only [findTerm, hcond, if_false, Bool.false_eq_true] at h
        cases hs : findTerm (d :: l2) with
        | none => rw [hs] at h; simp at h
        | some p =>
          rw [hs] at h
          obtain ⟨v2, r2⟩ := p
          simp only [Option.some.injEq, Prod.mk.injEq] at h
          have hlt := ih v2 r2 hs
          obtain ⟨hv, hr⟩ := h
          subst hr
          simp only [List.length_cons] at hlt ⊢
          omega

theorem atAtGo_nil : ∀ fuel, atAtGo fuel [] = .ok [] := by
  intro fuel
  cases fuel <;> rfl

theorem atAtGo_irrel :
    ∀ f1 f2 l, l.length < f1 → l.length < f2 → atAtGo f1 l = atAtGo f2 l := by
  intro f1
  induction f1 with
  | zero => intro f2 l h1 _; omega
  | succ g ih =>
    intro f2 l h1 h2
    cases l with
    | nil => rw [atAtGo_nil, atAtGo_nil]
    | cons c rest =>
      cases f2 with
      | zero => omega
      | succ g2 =>
        simp only [List.length_cons] at h1 h2
        by_cases hc : c = '@'
        · subst hc
          simp only [atAtGo, beq_self_eq_true, if_true]
          cases hs : scanKey rest with
          | none =>
            have hle := dropLine_length rest
            simpa using ih g2 _ (by omega) (by omega)
          | some p =>
            obtain ⟨key, afterKey⟩ := p
            cases ht : findTerm afterKey with
            | none => simp [ht]
            | some q =>
              obtain ⟨v, afterVal⟩ := q
              have l1 := scanKey_length rest key afterKey hs
              have l2 := findTerm_length afterKey v afterVal ht
              have l3 := dropLine_length afterVal
              simp only [ht, ih g2 (dropLine afterVal) (by omega) (by omega)]
        · have hcb : (c == '@') = false := beq_eq_false_iff_ne.mpr hc
          simp only [atAtGo, hcb, if_false, Bool.false_eq_true]
          have hd : (dropLine (c :: rest)).length ≤ rest.length := by
            by_cases hn : c = '\n'
            · simp [dropLine, hn]
            · simp only [dropLine, beq_eq_false_iff_ne.mpr hn, if_false, Bool.false_eq_true]
              exact dropLine_length rest
          exact ih g2 _ (by omega) (by omega)

/-- C6: for every input text that opens a directive `@key@` at its start and
has no literal `@@` terminator anywhere before end of input, the directive
scanner fails with `MalformedDirective` for that key — it never returns a
silently truncated value. -/
theorem directive_unterminated_fails (k cs : List Char)
    (hk : validKeyChars k = true) (hterm : hasAtAt cs = false) :
    atAtParse ('@' :: (k ++ '@' :: cs)) =
      .error (.MalformedDirective (trimChars k)) := by
  unfold atAtParse
  simp only [List.length_cons, atAtGo, beq_self_eq_true, if_true,
    scanKey_append cs k hk, findTerm_none cs hterm]

/-- Witness for C6 at the concrete input `@ct-cargo-deps@ one two` (no
terminator): the scanner rejects it with `MalformedDirective`. -/
theorem directive_unterminated_fails_witness :
    validKeyChars "ct-cargo-deps".toList = true ∧
    hasAtAt " one two".toList = false ∧
    atAtParse ('@' :: ("ct-cargo-deps".toList ++ '@' :: " one two".toList)) =
      .error (.MalformedDirective (trimChars "ct-cargo-deps".toList)) :=
  ⟨by decide, by decide,
    directive_unterminated_fails "ct-cargo-deps".toList " one two".toList
      (by decide) (by decide)⟩

/-- C7: a key is recognized only when its `@` is the very first character of
a line — a line starting with any other character is skipped whole, whatever
`@key@` shapes it contains — and inside a still-open value every `@key@`
shape is plain content until the literal `@@` terminator: the whole value is
returned as one directive and scanning resumes after the terminator. -/
theorem directive_line_anchored_and_value_flat :
    (∀ (c : Char) (line rest : List Char), ¬(c = '@') → '\n' ∉ (c :: line) →
      atAtParse ((c :: line) ++ '\n' :: rest) = atAtParse rest) ∧
    (∀ k v rest, validKeyChars k = true → hasAtAt v = false →
      v.getLast? ≠ some '@' →
      atAtParse ('@' :: (k ++ '@' :: (v ++ '@' :: '@' :: '\n' :: rest))) =
        Except.map (fun ds => (trimChars k, trimChars v) :: ds)
          (atAtParse rest)) := by
  constructor
  · intro c line rest hc hn
    unfold atAtParse
    have hd : dropLine (c :: (line ++ '\n' :: rest)) = rest :=
      dropLine_append rest (c :: line) hn
    rw [show (c :: line) ++ '\n' :: rest = c :: (line ++ '\n' :: rest) from rfl]
    simp only [List.length_cons]
    simp only [atAtGo, beq_eq_false_iff_ne.mpr hc, if_false, Bool.false_eq_true]
    rw [hd]
    exact atAtGo_irrel _ _ rest (by simp; omega) (by omega)
  · intro k v rest hk hterm hlast
    unfold atAtParse
    have hfind : findTerm (v ++ '@' :: '@' :: '\n' :: rest) =
        some (v, '\n' :: rest) := findTerm_append ('\n' :: rest) v hterm hlast
    simp only [List.length_cons, atAtGo, beq_self_eq_true, if_true,
      scanKey_append _ k hk, hfind]
    rw [show dropLine ('\n' :: rest) = rest from by simp [dropLine]]
    rw [atAtGo_irrel _ (rest.length + 1) rest (by simp; omega) (by omega)]
    cases atAtGo (rest.length + 1) rest <;> rfl

/-- Witness for C7: an indented `@ct-default@ ... @@` line is skipped whole,
and a value containing the line-anchored shape `@inner@` is returned as one
single directive value, not as a nested directive. -/
theorem directive_line_anchored_and_value_flat_witness :
    atAtParse ((' ' :: "@ct-default@ true @@".toList) ++ '\n' :: "x".toList) =
      atAtParse "x".toList ∧
    atAtParse ('@' :: ("ct-task-deps".toList ++ '@' ::
        ("\n@inner@ one\n".toList ++ '@' :: '@' :: '\n' :: "rest".toList))) =
      Except.map
        (fun ds => (trimChars "ct-task-deps".toList,
          trimChars "\n@inner@ one\n".toList) :: ds)
        (atAtParse "rest".toList) :=
  ⟨directive_line_anchored_and_value_flat.1 ' ' "@ct-default@ true @@".toList
      "x".toList (by decide) (by decide),
    directive_line_anchored_and_value_flat.2 "ct-task-deps".toList
      "\n@inner@ one\n".toList "rest".toList (by decide) (by decide) (by decide)⟩

/-- C8: for every well-formed `@key@ value @@` text, parsing yields the raw
value content — embedded newlines included — trimmed only at its two outer
edges, so parsing then re-serializing the value reproduces the original
value up to that outer trimming. -/
theorem directive_roundtrip (k v : List Char) (hk : validKeyChars k = true)
    (hterm : hasAtAt v = false) (hlast : v.getLast? ≠ some '@') :
    atAtParse (serializeDirective k v) = .ok [(trimChars k, trimChars v)] := by
  unfold atAtParse serializeDirective
  have hfind : findTerm (v ++ ['@', '@']) = some (v, []) :=
    findTerm_append [] v hterm hlast
  simp only [List.length_cons, atAtGo, beq_self_eq_true, if_true,
    scanKey_append _ k hk, hfind, dropLine, atAtGo_nil]

/-- Witness for C8 at a concrete multi-line value: the parsed value is the
raw content between the delimiters with the embedded newline preserved and
only the two outer edges trimmed. -/
theorem directive_roundtrip_witness :
    atAtParse (serializeDirective "ct-task-deps".toList " one\ntwo ".toList) =
      .ok [(trimChars "ct-task-deps".toList, trimChars " one\ntwo ".toList)] ∧
    trimChars " one\ntwo ".toList = "one\ntwo".toList :=
  ⟨directive_roundtrip "ct-task-deps".toList " one\ntwo ".toList
      (by decide) (by decide) (by decide), by decide⟩

/-! ### Resolver lemmas -/

theorem idxOf_lt_length : ∀ (l : List String) (x : String), x ∈ l →
    idxOf l x < l.length := by
  intro l
  induction l with
  | nil => simp
  | cons a l ih =>
    intro x hx
    by_cases h : a = x
    · simp [idxOf, h]
    · have hxl : x ∈ l := by
        rcases List.mem_cons.mp hx with h1 | h1
        · exact absurd h1.symm h
        · exact h1
      simp only [idxOf, if_neg h, List.length_cons]
      exact Nat.succ_lt_succ (ih x hxl)

theorem idxOf_append_left : ∀ (l l2 : List String) (x : String), x ∈ l →
    idxOf (l ++ l2) x = idxOf l x := by
  intro l l2
  induction l with
  | nil => simp
  | cons a l ih =>
    intro x hx
    by_cases h : a = x
    · simp [idxOf, h]
    · have hxl : x ∈ l := by
        rcases List.mem_cons.mp hx with h1 | h1
        · exact absurd h1.symm h
        · exact h1
      simp only [List.cons_append, idxOf, if_neg h]
      exact congrArg (fun n => n + 1) (ih x hxl)

theorem idxOf_append_self : ∀ (l : List String) (x : String), x ∉ l →
    idxOf (l ++ [x]) x = l.length := by
  intro l
  induction l with
  | nil => intro x _; simp [idxOf]
  | cons a l ih =>
    intro x hx
    simp only [List.mem_cons, not_or] at hx
    simp only [List.cons_append, idxOf, if_neg (Ne.symm hx.1), List.length_cons]
    exact congrArg (fun n => n + 1) (ih x hx.2)

theorem closureRun_ok (reg : List TaskMetadata) :
    ∀ fuel names st st', closureRun reg fuel names st = .ok st' →
      (∀ x ∈ st.visited, x ∈ st'.visited) ∧
      (∀ n ∈ names, n ∈ st'.visited) ∧
      (ClosedV reg st.visited → ClosedV reg st'.visited) := by
  intro fuel
  induction fuel with
  | zero =>
    intro names st st' h
    cases names with
    | nil =>
      simp only [closureRun, Except.ok.injEq] at h
      subst h
      exact ⟨fun x hx => hx, by simp, fun hc => hc⟩
    | cons n rest => simp [closureRun] at h
  | succ fuel ih =>
    intro names st st' h
    cases names with
    | nil =>
      simp only [closureRun, Except.ok.injEq] at h
      subst h
      exact ⟨fun x hx => hx, by simp, fun hc => hc⟩
    | cons name rest =>
      simp only [closureRun] at h
      by_cases hv : name ∈ st.visited
      · rw [if_pos hv] at h
        obtain ⟨mono, mem, closed⟩ := ih rest st st' h
        refine ⟨mono, ?_, closed⟩
        intro n hn
        rcases List.mem_cons.mp hn with h1 | h1
        · exact h1 ▸ mono _ hv
        · exact mem _ h1
      · rw [if_neg hv] at h
        by_cases hv2 : name ∈ st.visiting
        · rw [if_pos hv2] at h
          exact absurd h (by simp)
        · rw [if_neg hv2] at h
          cases hf : findTask reg name with
          | none => simp [hf] at h
          | some t =>
            simp only [hf] at h
            by_cases hb : t.is_bootstrap
            · rw [if_pos hb] at h
              obtain ⟨mono, mem, closed⟩ :=
                ih rest ⟨st.visiting, name :: st.visited⟩ st' h
              refine ⟨fun x hx => mono x (by simp [hx]), ?_, ?_⟩
              · intro n hn
                rcases List.mem_cons.mp hn with h1 | h1
                · exact h1 ▸ mono name (by simp)
                · exact mem _ h1
              · intro hcl
                refine closed ?_
                intro v hvmem t' hft' hbt' d hd
                rcases List.mem_cons.mp hvmem with h1 | h1
                · subst h1
                  rw [hf] at hft'
                  cases hft'
                  rw [hb] at hbt'
                  cases hbt'
                · exact List.mem_cons_of_mem _ (hcl v h1 t' hft' hbt' d hd)
            · rw [if_neg hb] at h
              cases hd : closureRun reg fuel t.task_deps
                  ⟨name :: st.visiting, st.visited⟩ with
              | error e => simp [hd] at h
              | ok st2 =>
                simp only [hd] at h
                obtain ⟨mono1, mem1, closed1⟩ :=
                  ih t.task_deps ⟨name :: st.visiting, st.visited⟩ st2 hd
                obtain ⟨mono2, mem2, closed2⟩ :=
                  ih rest ⟨st.visiting, name :: st2.visited⟩ st' h
                refine ⟨fun x hx => mono2 x (by simp [mono1 x hx]), ?_, ?_⟩
                · intro n hn
                  rcases List.mem_cons.mp hn with h1 | h1
                  · exact h1 ▸ mono2 name (by simp)
                  · exact mem2 _ h1
                · intro hcl
                  refine closed2 ?_
                  intro v hvmem t' hft' hbt' d hdep
                  rcases List.mem_cons.mp hvmem with h1 | h1
                  · subst h1
                    rw [hf] at hft'
                    cases hft'
                    exact List.mem_cons_of_mem _ (mem1 d hdep)
                  · exact List.mem_cons_of_mem _
                      (closed1 hcl v h1 t' hft' hbt' d hdep)

theorem closureRun_no_unknown (reg : List TaskMetadata)
    (hclosed : ∀ u ∈ reg, ∀ d ∈ u.task_deps, (findTask reg d).isSome) :
    ∀ fuel names st m, (∀ n ∈ names, (findTask reg n).isSome) →
      closureRun reg fuel names st ≠ .error (.UnknownTask m) := by
  intro fuel
  induction fuel with
  | zero =>
    intro names st m _ h
    cases names with
    | nil => simp [closureRun] at h
    | cons n rest => simp [closureRun] at h
  | succ fuel ih =>
    intro names st m hnames h
    cases names with
    | nil => simp [closureRun] at h
    | cons name rest =>
      simp only [closureRun] at h
      by_cases hv : name ∈ st.visited
      · rw [if_pos hv] at h
        exact ih rest st m (fun n hn => hnames n (List.mem_cons_of_mem _ hn)) h
      · rw [if_neg hv] at h
        by_cases hv2 : name ∈ st.visiting
        · rw [if_pos hv2] at h
          simp at h
        · rw [if_neg hv2] at h
          cases hf : findTask reg name with
          | none =>
            have := hnames name (List.mem_cons_self _ _)
            rw [hf] at this
            simp at this
          | some t =>
            simp only [hf] at h
            by_cases hb : t.is_bootstrap
            · rw [if_pos hb] at h
              exact ih rest _ m
                (fun n hn => hnames n (List.mem_cons_of_mem _ hn)) h
            · rw [if_neg hb] at h
              have htreg : t ∈ reg := List.mem_of_find?_eq_some hf
              cases hdep : closureRun reg fuel t.task_deps
                  ⟨name :: st.visiting, st.visited⟩ with
              | error e =>
                simp only [hdep, Except.error.injEq] at h
                rw [h] at hdep
                exact ih t.task_deps ⟨name :: st.visiting, st.visited⟩ m
                  (fun d hd => hclosed t htreg d hd) hdep
              | ok st2 =>
                simp only [hdep] at h
                exact ih rest _ m
                  (fun n hn => hnames n (List.mem_cons_of_mem _ hn)) h

theorem emitRun_ok (reg : List TaskMetadata) (clo : List String)
    (hclo : ClosedV reg clo) :
    ∀ fuel names out res, emitRun reg clo fuel names out = .ok res →
      (∀ x ∈ out, x ∈ res) ∧
      (∀ n ∈ names, n ∈ clo → ∀ u, findTask reg n = some u →
        u.is_bootstrap = false → n ∈ res) ∧
      (∀ x ∈ res, x ∈ out ∨ ∃ u, findTask reg x = some u ∧ u.is_bootstrap = false) ∧
      (TopoInv reg out → TopoInv reg res) := by
  intro fuel
  induction fuel with
  | zero =>
    intro names out res h
    cases names with
    | nil =>
      simp only [emitRun, Except.ok.injEq] at h
      subst h
      exact ⟨fun x hx => hx, by simp, fun x hx => Or.inl hx, fun ht => ht⟩
    | cons n rest => simp [emitRun] at h
  | succ fuel ih =>
    intro names out res h
    cases names with
    | nil =>
      simp only [emitRun, Except.ok.injEq] at h
      subst h
      exact ⟨fun x hx => hx, by simp, fun x hx => Or.inl hx, fun ht => ht⟩
    | cons name rest =>
      simp only [emitRun] at h
      by_cases h1 : name ∈ out
      · rw [if_pos h1] at h
        obtain ⟨mono, mem, origin, topo⟩ := ih rest out res h
        refine ⟨mono, ?_, origin, topo⟩
        intro n hn hnclo u hu hub
        rcases List.mem_cons.mp hn with he | he
        · exact he ▸ mono _ h1
        · exact mem n he hnclo u hu hub
      · rw [if_neg h1] at h
        by_cases h2 : name ∈ clo
        · rw [if_pos h2] at h
          cases hf : findTask reg name with
          | none =>
            simp only [hf] at h
            obtain ⟨mono, mem, origin, topo⟩ := ih rest out res h
            refine ⟨mono, ?_, origin, topo⟩
            intro n hn hnclo u hu hub
            rcases List.mem_cons.mp hn with he | he
            · subst he; rw [hf] at hu; cases hu
            · exact mem n he hnclo u hu hub
          | some t =>
            simp only [hf] at h
            by_cases hb : t.is_bootstrap
            · rw [if_pos hb] at h
              obtain ⟨mono, mem, origin, topo⟩ := ih rest out res h
              refine ⟨mono, ?_, origin, topo⟩
              intro n hn hnclo u hu hub
              rcases List.mem_cons.mp hn with he | he
              · subst he
                rw [hf] at hu
                cases hu
                rw [hb] at hub
                cases hub
              · exact mem n he hnclo u hu hub
            · rw [if_neg hb] at h
              have hbf : t.is_bootstrap = false := by
                revert hb; cases t.is_bootstrap <;> simp
              cases hdep : emitRun reg clo fuel t.task_deps out with
              | error e => simp [hdep] at h
              | ok out2 =>
                simp only [hdep] at h
                obtain ⟨mono1, mem1, origin1, topo1⟩ := ih t.task_deps out out2 hdep
                by_cases h3 : name ∈ out2
                · rw [if_pos h3] at h
                  obtain ⟨mono2, mem2, origin2, topo2⟩ := ih rest out2 res h
                  refine ⟨fun x hx => mono2 x (mono1 x hx), ?_, ?_,
                    fun ht => topo2 (topo1 ht)⟩
                  · intro n hn hnclo u hu hub
                    rcases List.mem_cons.mp hn with he | he
                    · exact he ▸ mono2 _ h3
                    · exact mem2 n he hnclo u hu hub
                  · intro x hx
                    rcases origin2 x hx with hx2 | hx2
                    · exact origin1 x hx2
                    · exact Or.inr hx2
                · rw [if_neg h3] at h
                  obtain ⟨mono2, mem2, origin2, topo2⟩ := ih rest (out2 ++ [name]) res h
                  refine ⟨?_, ?_, ?_, ?_⟩
                  · exact fun x hx => mono2 x (List.mem_append_left _ (mono1 x hx))
                  · intro n hn hnclo u hu hub
                    rcases List.mem_cons.mp hn with he | he
                    · subst he
                      exact mono2 _ (List.mem_append_right _ (List.mem_singleton_self _))
                    · exact mem2 n he hnclo u hu hub
                  · intro x hx
                    rcases origin2 x hx with hx2 | hx2
                    · rcases List.mem_append.mp hx2 with hx3 | hx3
                      · exact origin1 x hx3
                      · have hxn : x = name := List.mem_singleton.mp hx3
                        subst hxn
                        exact Or.inr ⟨t, hf, hbf⟩
                    · exact Or.inr hx2
                  · intro ht
                    refine topo2 ?_
                    have htopo2 : TopoInv reg out2 := topo1 ht
                    intro a ha b hstep
                    rcases List.mem_append.mp ha with ha2 | ha2
                    · obtain ⟨hbmem, hlt⟩ := htopo2 a ha2 b hstep
                      refine ⟨List.mem_append_left _ hbmem, ?_⟩
                      rw [idxOf_append_left out2 [name] b hbmem,
                        idxOf_append_left out2 [name] a ha2]
                      exact hlt
                    · have haname : a = name := List.mem_singleton.mp ha2
                      obtain ⟨t', u', hft', hbt', hdmem, hfu', hbu'⟩ := hstep
                      rw [haname, hf] at hft'
                      cases hft'
                      have hbclo : b ∈ clo := hclo name h2 t hf hbf b hdmem
                      have hbout2 : b ∈ out2 := mem1 b hdmem hbclo u' hfu' hbu'
                      refine ⟨List.mem_append_left _ hbout2, ?_⟩
                      rw [haname, idxOf_append_left out2 [name] b hbout2,
                        idxOf_append_self out2 name h3]
                      exact idxOf_lt_length out2 b hbout2
        · rw [if_neg h2] at h
          obtain ⟨mono, mem, origin, topo⟩ := ih rest out res h
          refine ⟨mono, ?_, origin, topo⟩
          intro n hn hnclo u hu hub
          rcases List.mem_cons.mp hn with he | he
          · subst he; exact absurd hnclo h2
          · exact mem n he hnclo u hu hub

theorem emitRun_no_unknown (reg : List TaskMetadata) (clo : List String) :
    ∀ fuel names out m, emitRun reg clo fuel names out ≠ .error (.UnknownTask m) := by
  intro fuel
  induction fuel with
  | zero =>
    intro names out m h
    cases names <;> simp [emitRun] at h
  | succ fuel ih =>
    intro names out m h
    cases names with
    | nil => simp [emitRun] at h
    | cons name rest =>
      simp only [emitRun] at h
      by_cases h1 : name ∈ out
      · rw [if_pos h1] at h; exact ih rest out m h
      · rw [if_neg h1] at h
        by_cases h2 : name ∈ clo
        · rw [if_pos h2] at h
          cases hf : findTask reg name with
          | none => simp only [hf] at h; exact ih rest out m h
          | some t =>
            simp only [hf] at h
            by_cases hb : t.is_bootstrap
            · rw [if_pos hb] at h; exact ih rest out m h
            · rw [if_neg hb] at h
              cases hdep : emitRun reg clo fuel t.task_deps out with
              | error e =>
                simp only [hdep, Except.error.injEq] at h
                rw [h] at hdep
                exact ih t.task_deps out m hdep
              | ok out2 =>
                simp only [hdep] at h
                by_cases h3 : name ∈ out2
                · rw [if_pos h3] at h; exact ih rest out2 m h
                · rw [if_neg h3] at h; exact ih rest (out2 ++ [name]) m h
        · rw [if_neg h2] at h; exact ih rest out m h

theorem resolve_ok_parts (reg : List TaskMetadata) (requested out : List String)
    (h : resolve reg requested = .ok out) :
    ∃ st, closureRun reg (resolveFuel reg (requestedOrDefault reg requested))
        (requestedOrDefault reg requested) ⟨[], []⟩ = .ok st ∧
      emitRun reg st.visited (resolveFuel reg (requestedOrDefault reg requested))
        (reg.map (fun t => t.name)) [] = .ok out := by
  unfold resolve at h
  cases hc : closureRun reg (resolveFuel reg (requestedOrDefault reg requested))
      (requestedOrDefault reg requested) ⟨[], []⟩ with
  | error e => simp [hc] at h
  | ok st =>
    simp only [hc] at h
    exact ⟨st, rfl, h⟩

theorem resolve_ok_main (reg : List TaskMetadata) (requested out : List String)
    (h : resolve reg requested = .ok out) :
    (∀ x ∈ out, ∃ u, findTask reg x = some u ∧ u.is_bootstrap = false) ∧
    TopoInv reg out ∧
    (∀ r n, r ∈ requestedOrDefault reg requested →
      Relation.ReflTransGen (depStep reg) r n → ∀ u, findTask reg n = some u →
      u.is_bootstrap = false → n ∈ out) := by
  obtain ⟨st, hc, he⟩ := resolve_ok_parts reg requested out h
  have hcl0 : ClosedV reg ([] : List String) := by
    intro v hv
    exact absurd hv (List.not_mem_nil v)
  obtain ⟨_, hreqmem, hclosed⟩ := closureRun_ok reg _ _ _ _ hc
  have hV : ClosedV reg st.visited := hclosed hcl0
  obtain ⟨hmono, hmem, horigin, htopo⟩ := emitRun_ok reg st.visited hV _ _ _ _ he
  refine ⟨?_, ?_, ?_⟩
  · intro x hx
    rcases horigin x hx with h1 | h1
    · exact absurd h1 (List.not_mem_nil x)
    · exact h1
  · refine htopo ?_
    intro a ha
    exact absurd ha (List.not_mem_nil a)
  · intro r n hr hreach u hu hub
    have hnV : n ∈ st.visited := by
      clear hu hub
      induction hreach with
      | refl => exact hreqmem r hr
      | tail _ hbc ihr =>
        obtain ⟨t', u', hft', hbt', hdmem, hfu', hbu'⟩ := hbc
        exact hV _ ihr t' hft' hbt' _ hdmem
    have hnames : n ∈ reg.map (fun t => t.name) := by
      have hureg : u ∈ reg := List.mem_of_find?_eq_some hu
      have hname : u.name = n := by
        have hp := List.find?_some hu
        simpa using hp
      exact List.mem_map.mpr ⟨u, hureg, hname⟩
    exact hmem n hnames hnV u hu hub

theorem resolve_no_unknown (reg : List TaskMetadata) (requested : List String)
    (m : String)
    (hclosed : ∀ u ∈ reg, ∀ d ∈ u.task_deps, (findTask reg d).isSome)
    (hreq : ∀ r ∈ requestedOrDefault reg requested, (findTask reg r).isSome) :
    resolve reg requested ≠ .error (.UnknownTask m) := by
  unfold resolve
  cases hc : closureRun reg (resolveFuel reg (requestedOrDefault reg requested))
      (requestedOrDefault reg requested) ⟨[], []⟩ with
  | error e =>
    intro h
    have he : e = .UnknownTask m := by simpa using h
    rw [he] at hc
    exact closureRun_no_unknown reg hclosed _ _ _ m hreq hc
  | ok st =>
    intro h
    exact emitRun_no_unknown reg st.visited _ _ _ m (by simpa using h)

/-- C1: over a registry whose dependency names and requested names all
resolve, if the transitive closure of `task_deps` reachable from the
requested set contains a cycle, `resolve` fails with `CyclicDependency` —
it never returns a (partial) order. -/
theorem resolve_cycle_fails (reg : List TaskMetadata) (requested : List String)
    (t : String)
    (hclosed : ∀ u ∈ reg, ∀ d ∈ u.task_deps, (findTask reg d).isSome)
    (hreq : ∀ r ∈ requestedOrDefault reg requested, (findTask reg r).isSome)
    (hreach : ∃ r ∈ requestedOrDefault reg requested,
      Relation.ReflTransGen (depStep reg) r t)
    (hcyc : Relation.TransGen (depStep reg) t t) :
    ∃ names, resolve reg requested = .error (.CyclicDependency names) := by
  cases hres : resolve reg requested with
  | ok out =>
    exfalso
    obtain ⟨hnb, htopo, hreachmem⟩ := resolve_ok_main reg requested out hres
    obtain ⟨r, hr, hrt⟩ := hreach
    have htprops : ∃ u, findTask reg t = some u ∧ u.is_bootstrap = false := by
      cases hcyc with
      | single hstep =>
        obtain ⟨t', u', h1, h2, h3, h4, h5⟩ := hstep
        exact ⟨u', h4, h5⟩
      | tail _ hstep =>
        obtain ⟨t', u', h1, h2, h3, h4, h5⟩ := hstep
        exact ⟨u', h4, h5⟩
    obtain ⟨u, hu, hub⟩ := htprops
    have htout : t ∈ out := hreachmem r t hr hrt u hu hub
    have key : ∀ b, Relation.TransGen (depStep reg) t b →
        b ∈ out ∧ idxOf out b < idxOf out t := by
      intro b hb
      induction hb with
      | single hstep => exact htopo t htout _ hstep
      | tail _ hstep ihb =>
        obtain ⟨hcmem, hclt⟩ := ihb
        obtain ⟨hbmem, hblt⟩ := htopo _ hcmem _ hstep
        exact ⟨hbmem, Nat.lt_trans hblt hclt⟩
    obtain ⟨_, hlt⟩ := key t hcyc
    omega
  | error e =>
    cases e with
    | UnknownTask m =>
      exact absurd hres (resolve_no_unknown reg requested m hclosed hreq)
    | CyclicDependency ns => exact ⟨ns, rfl⟩

/-- Witness for C1: on the registry `A -> B -> A`, resolving `[A]` yields
`CyclicDependency` naming both `A` and `B`. -/
theorem resolve_cycle_fails_witness :
    resolve regCyc ["A"] = .error (.CyclicDependency ["B", "A"]) ∧
    ∃ names, resolve regCyc ["A"] = .error (.CyclicDependency names) :=
  ⟨rfl,
    resolve_cycle_fails regCyc ["A"] "A" (by decide) (by decide)
      ⟨"A", by decide, Relation.ReflTransGen.refl⟩
      (Relation.TransGen.head
        (show depStep regCyc "A" "B" from
          ⟨taskCycA, taskCycB, rfl, rfl, by decide, rfl, rfl⟩)
        (Relation.TransGen.single
          (show depStep regCyc "B" "A" from
            ⟨taskCycB, taskCycA, rfl, rfl, by decide, rfl, rfl⟩)))⟩

/-- C2: every successful `resolve` result is a topological order of the
transitive closure — a task appears only after all of its (closure)
`task_deps`, and every non-bootstrap task reachable from the requested set
appears in it. -/
theorem resolve_topological_order (reg : List TaskMetadata)
    (requested out : List String) (h : resolve reg requested = .ok out) :
    TopoInv reg out ∧
    (∀ r n, r ∈ requestedOrDefault reg requested →
      Relation.ReflTransGen (depStep reg) r n → ∀ u, findTask reg n = some u →
      u.is_bootstrap = false → n ∈ out) := by
  obtain ⟨_, htopo, hreach⟩ := resolve_ok_main reg requested out h
  exact ⟨htopo, hreach⟩

/-- Witness for C2: the chain `A -> B -> C` resolves `[A]` to exactly
`[C, B, A]`, and on the registry discovered as `[Z, A]` with no dependencies
the tie is broken by discovery order (`[Z, A]`), not by name sort. -/
theorem resolve_topological_order_witness :
    resolve regChain ["A"] = .ok ["C", "B", "A"] ∧
    resolve regTie ["A", "Z"] = .ok ["Z", "A"] ∧
    TopoInv regChain ["C", "B", "A"] :=
  ⟨rfl, rfl, (resolve_topological_order regChain ["A"] ["C", "B", "A"] rfl).1⟩

/-- C9: a `resolve` call with an empty requested list behaves exactly as one
requesting all tasks with `is_default = true`, and any non-bootstrap default
task appears in the resulting non-empty order. -/
theorem resolve_empty_uses_defaults (reg : List TaskMetadata) (out : List String)
    (h : resolve reg [] = .ok out) :
    resolve reg [] = resolve reg (defaultNames reg) ∧
    (∀ n u, findTask reg n = some u → u.is_default = true →
      u.is_bootstrap = false → n ∈ out ∧ out ≠ []) := by
  constructor
  · have h1 : requestedOrDefault reg [] = defaultNames reg := by
      simp [requestedOrDefault]
    have h2 : requestedOrDefault reg (defaultNames reg) = defaultNames reg := by
      simp [requestedOrDefault]
    unfold resolve
    rw [h1, h2]
  · intro n u hu hud hub
    obtain ⟨_, _, hreach⟩ := resolve_ok_main reg [] out h
    have hureg : u ∈ reg := List.mem_of_find?_eq_some hu
    have hname : u.name = n := by simpa using List.find?_some hu
    have hmemdef : n ∈ requestedOrDefault reg [] := by
      simp only [requestedOrDefault, List.isEmpty_nil, if_true]
      exact List.mem_map.mpr ⟨u, List.mem_filter.mpr ⟨hureg, hud⟩, hname⟩
    have hnout : n ∈ out := hreach n n hmemdef Relation.ReflTransGen.refl u hu hub
    refine ⟨hnout, ?_⟩
    intro hnil
    rw [hnil] at hnout
    exact absurd hnout (List.not_mem_nil n)

/-- Witness for C9: the registry with the single default task `D` resolves
the empty request to the non-empty order `[D]`. -/
theorem resolve_empty_uses_defaults_witness :
    resolve regDef [] = .ok ["D"] ∧
    ("D" ∈ ["D"] ∧ ["D"] ≠ ([] : List String)) :=
  ⟨rfl, (resolve_empty_uses_defaults regDef ["D"] rfl).2 "D" taskDef rfl rfl rfl⟩

/-- C3: in every invocation plan, the bootstrap tasks (every task with
`is_bootstrap = true`, whether requested or not) form the initial segment of
the overall run, before every main-phase task, and no main-phase entry is a
bootstrap task — a bootstrap task that is also a transitive dependency is
not executed a second time in the main phase. -/
theorem bootstrap_precedes_main (reg reg2 : List TaskMetadata)
    (requested plan : List String)
    (h : invocationPlan reg reg2 requested = .ok plan) :
    ∃ main, resolve reg2 requested = .ok main ∧
      plan = bootstrapNames reg ++ main ∧
      (∀ t ∈ reg, t.is_bootstrap = true → t.name ∈ bootstrapNames reg) ∧
      (∀ n ∈ main, ∀ u, findTask reg2 n = some u → u.is_bootstrap = false) := by
  unfold invocationPlan at h
  cases hres : resolve reg2 requested with
  | error e => simp [hres] at h
  | ok main =>
    simp only [hres, Except.ok.injEq] at h
    obtain ⟨hnb, _, _⟩ := resolve_ok_main reg2 requested main hres
    refine ⟨main, rfl, h.symm, ?_, ?_⟩
    · intro t ht htb
      exact List.mem_map.mpr ⟨t, List.mem_filter.mpr ⟨ht, htb⟩, rfl⟩
    · intro n hn u hu
      obtain ⟨u', hu', hub'⟩ := hnb n hn
      rw [hu] at hu'
      cases hu'
      exact hub'

/-- Witness for C3: with bootstrap task `B` also a dependency of the
requested task `A`, the plan is `[B, A]` — `B` runs first and only once. -/
theorem bootstrap_precedes_main_witness :
    invocationPlan regBoot regBoot ["A"] = .ok ["B", "A"] ∧
    ∃ main, resolve regBoot ["A"] = .ok main ∧
      ["B", "A"] = bootstrapNames regBoot ++ main ∧
      (∀ t ∈ regBoot, t.is_bootstrap = true → t.name ∈ bootstrapNames regBoot) ∧
      (∀ n ∈ main, ∀ u, findTask regBoot n = some u → u.is_bootstrap = false) :=
  ⟨rfl, bootstrap_precedes_main regBoot regBoot ["A"] ["B", "A"] rfl⟩

/-- C5: if any task of the run set declares a `min_version` above the running
tool's version (three-component semantic ordering, as `semverLt`), the
invocation fails with `VersionTooLow` and its spawn trace is empty — no
external process is spawned, no task is built or run. -/
theorem version_gate_blocks (tool : SemVer) (reg : List TaskMetadata)
    (requested : List String) (exit : String → Nat) (plan : List String)
    (n : String) (t : TaskMetadata) (v : SemVer)
    (hplan : invocationPlan reg reg requested = .ok plan) (hn : n ∈ plan)
    (hfind : findTask reg n = some t) (hv : t.min_version = some v)
    (hlt : semverLt tool v = true) :
    (runInvocation tool reg requested exit).1 = [] ∧
    ∃ m, (runInvocation tool reg requested exit).2 = .error (.VersionTooLow m) := by
  have hmem : t ∈ plan.filterMap (findTask reg) :=
    List.mem_filterMap.mpr ⟨n, hn, hfind⟩
  have hbad : (fun t => !(versionOk tool t)) t = true := by
    simp [versionOk, hv, hlt]
  have hsome : ((plan.filterMap (findTask reg)).find?
      (fun t => !(versionOk tool t))).isSome :=
    List.find?_isSome.mpr ⟨t, hmem, hbad⟩
  obtain ⟨w, hw⟩ := Option.isSome_iff_exists.mp hsome
  have hrun : runInvocation tool reg requested exit =
      ([], .error (.VersionTooLow w.name)) := by
    unfold runInvocation
    simp only [hplan, hw]
  rw [hrun]
  exact ⟨rfl, w.name, rfl⟩

/-- Witness for C5: a task demanding version 9.9.9 under a 0.0.7 tool makes
the invocation fail with `VersionTooLow` and an empty spawn trace. -/
theorem version_gate_blocks_witness :
    invocationPlan regVer regVer ["A"] = .ok ["A"] ∧
    ((runInvocation ⟨0, 0, 7⟩ regVer ["A"] (fun _ => 0)).1 = [] ∧
      ∃ m, (runInvocation ⟨0, 0, 7⟩ regVer ["A"] (fun _ => 0)).2 =
        .error (.VersionTooLow m)) :=
  ⟨rfl,
    version_gate_blocks ⟨0, 0, 7⟩ regVer ["A"] (fun _ => 0) ["A"] "A" taskVer
      ⟨9, 9, 9⟩ rfl (by decide) rfl rfl rfl⟩

/-! ### Environment-bridge lemmas -/

theorem bridgeAfter_mem (p : String × String) :
    ∀ l : List TaskRun, p ∈ bridgeAfter l ↔ ∃ t ∈ l, p ∈ t.exports := by
  intro l
  induction l with
  | nil => simp [bridgeAfter]
  | cons t rest ih =>
    simp only [bridgeAfter, List.mem_append, ih]
    constructor
    · rintro (hp | ⟨x, hx, hpx⟩)
      · exact ⟨t, List.mem_cons_self t rest, hp⟩
      · exact ⟨x, List.mem_cons_of_mem _ hx, hpx⟩
    · rintro ⟨x, hx, hpx⟩
      rcases List.mem_cons.mp hx with he | he
      · subst he; exact Or.inl hpx
      · exact Or.inr ⟨x, he, hpx⟩

theorem take_strip (tasks : List TaskRun) :
    ∀ j : Nat, ((tasks.map (fun t => (⟨t.exports, []⟩ : TaskRun))).take j) =
      (tasks.take j).map (fun t => (⟨t.exports, []⟩ : TaskRun)) := by
  induction tasks with
  | nil => intro j; simp
  | cons t rest ih =>
    intro j
    cases j with
    | zero => simp
    | succ j => simp only [List.map_cons, List.take_succ_cons, ih j]

theorem bridgeAfter_strip :
    ∀ l : List TaskRun,
      bridgeAfter (l.map (fun t => (⟨t.exports, []⟩ : TaskRun))) = bridgeAfter l := by
  intro l
  induction l with
  | nil => rfl
  | cons t rest ih => simp [bridgeAfter, ih]

/-- C4: the Environment Bridge is the invocation-scoped channel between
tasks.  A key exported to the bridge by the task at position `i` is visible
in the execution environment of every later position `j` of the same
invocation; a key neither in the base process environment nor exported by
any earlier task of this invocation is invisible at `j` (so nothing from a
separate invocation, which only writes its own bridge, can appear); and the
environment is unchanged if every task's process-local `std::env::set_var`
mutations are erased — local mutation never propagates. -/
theorem env_bridge_scoped :
    (∀ (base : List (String × String)) (tasks : List TaskRun) (j : Nat)
        (ti : TaskRun) (k v : String), ti ∈ tasks.take j → (k, v) ∈ ti.exports →
        (envLookup k (envSeenBy base tasks j)).isSome = true) ∧
    (∀ (base : List (String × String)) (tasks : List TaskRun) (j : Nat)
        (k : String), (∀ p ∈ base, p.1 ≠ k) →
        (∀ ti ∈ tasks.take j, ∀ p ∈ ti.exports, p.1 ≠ k) →
        envLookup k (envSeenBy base tasks j) = none) ∧
    (∀ (base : List (String × String)) (tasks : List TaskRun) (j : Nat),
        envSeenBy base (tasks.map (fun t => (⟨t.exports, []⟩ : TaskRun))) j =
          envSeenBy base tasks j) := by
  refine ⟨?_, ?_, ?_⟩
  · intro base tasks j ti k v hti hkv
    have hp : (k, v) ∈ envSeenBy base tasks j :=
      List.mem_append_right _
        ((bridgeAfter_mem (k, v) (tasks.take j)).mpr ⟨ti, hti, hkv⟩)
    have hex : ∃ p ∈ (envSeenBy base tasks j).reverse, (p.1 == k) = true :=
      ⟨(k, v), List.mem_reverse.mpr hp, by simp⟩
    have hsome := List.find?_isSome.mpr hex
    obtain ⟨w, hw⟩ := Option.isSome_iff_exists.mp hsome
    unfold envLookup
    rw [hw]
    rfl
  · intro base tasks j k hbase htasks
    have hall : ∀ p ∈ (envSeenBy base tasks j).reverse, ¬((p.1 == k) = true) := by
      intro p hp
      have hp2 : p ∈ envSeenBy base tasks j := List.mem_reverse.mp hp
      rcases List.mem_append.mp hp2 with h1 | h1
      · simpa using hbase p h1
      · obtain ⟨ti, hti, hpe⟩ := (bridgeAfter_mem p _).mp h1
        simpa using htasks ti hti p hpe
    have hnone : (envSeenBy base tasks j).reverse.find? (fun p => p.1 == k) = none :=
      List.find?_eq_none.mpr hall
    unfold envLookup
    rw [hnone]
  · intro base tasks j
    unfold envSeenBy
    rw [take_strip tasks j, bridgeAfter_strip]

/-- Witness for C4: the first task's bridge export is visible to the second
task, an un-exported key stays invisible, and erasing the tasks' local
`set_var` mutations leaves every later environment unchanged. -/
theorem env_bridge_scoped_witness :
    (envLookup "MY_VARIABLE" (envSeenBy [] invTasks 1)).isSome = true ∧
    envLookup "OTHER" (envSeenBy [] invTasks 2) = none ∧
    envSeenBy [] (invTasks.map (fun t => (⟨t.exports, []⟩ : TaskRun))) 2 =
      envSeenBy [] invTasks 2 :=
  ⟨env_bridge_scoped.1 [] invTasks 1 runExport "MY_VARIABLE" "MY_VALUE"
      (by decide) (by decide),
    env_bridge_scoped.2.1 [] invTasks 2 "OTHER" (by simp) (by decide),
    env_bridge_scoped.2.2 [] invTasks 2⟩

/-- C10: the task directory scanned by the registry is the compile-time
constant `.cargo-task`, and a single-file unit named `base ++ ".ct.rs"`
defines the task named `base` — the name is the file name with the fixed
suffix stripped. -/
theorem task_dir_and_script_suffix :
    CARGO_TASK_DIR = ".cargo-task" ∧
    ∀ base : List Char, ctTaskName (base ++ ctScriptSuffix) = some base := by
  refine ⟨rfl, ?_⟩
  intro base
  unfold ctTaskName
  have hlen : (base ++ ctScriptSuffix).length - ctScriptSuffix.length =
      base.length := by
    simp [List.length_append]
  rw [if_pos]
  · rw [hlen]
    exact congrArg some (List.take_left base ctScriptSuffix)
  · constructor
    · simp only [List.length_append]
      omega
    · rw [hlen]
      exact List.drop_left base ctScriptSuffix

end CargoTask
